import Mathlib

/-!
Shallow embedding of the DevForge incremental indexing and retrieval engine
(src/embeddings.js, src/scan.js, src/chat.js, src/read.js), together with
theorems settling the specification claims about it.
-/

/-- Model of JavaScript `text.split(/\r?\n/)` over the character list:
"\r\n" and "\n" are separators, a lone "\r" is ordinary text. -/
def splitLinesAux : List Char → List Char → List String
  | [], acc => [String.mk acc.reverse]
  | '\r' :: '\n' :: rest, acc => String.mk acc.reverse :: splitLinesAux rest []
  | '\n' :: rest, acc => String.mk acc.reverse :: splitLinesAux rest []
  | c :: rest, acc => splitLinesAux rest (c :: acc)

/-- `text.split(/\r?\n/)` as used by the chunker and by `readSlice`. -/
def splitLines (text : String) : List String :=
  splitLinesAux text.data []

/-- Model of the JavaScript truthiness test `!text.trim()` in `embedFile`:
the string trims to empty exactly when every character is whitespace. -/
def isBlank (s : String) : Bool :=
  s.data.all Char.isWhitespace

/-- The option bag of `chunkFileContent` (`{ maxChars = 2000, overlap = 200 }`). -/
structure ChunkCfg where
  maxChars : Nat
  overlap : Nat
deriving DecidableEq, Repr

/-- The default options of `chunkFileContent`. -/
def defaultCfg : ChunkCfg := { maxChars := 2000, overlap := 200 }

/-- A chunk as produced by `chunkFileContent`:
`{ text, start, end }` with 0-based inclusive line indices. -/
structure Chunk where
  text : String
  start : Nat
  «end» : Nat
deriving DecidableEq, Repr

/-- The inner `while` loop of `chunkFileContent`:
`while (end < lines.length && size + lines[end].length + 1 <= maxChars)
   { size += lines[end].length + 1; end++; }`.
It is driven by the list of lines remaining from position `endv`
(`endv < lines.length` holds exactly while that list is non-empty), and
returns the final value of `end`. -/
def scanEnd (maxChars : Nat) : List String → Nat → Nat → Nat
  | [], endv, _ => endv
  | l :: rest, endv, size =>
    if size + l.length + 1 ≤ maxChars then
      scanEnd maxChars rest (endv + 1) (size + l.length + 1)
    else endv

/-- The window-advance step of `chunkFileContent`:
`nextStart = Math.max(end - Math.floor(overlap / 80), end - 3);
 start = Math.max(start + 1, nextStart);`.
JavaScript `end - k` may be negative there, but it is then below `start + 1`,
so truncated Nat subtraction yields the same final maximum. -/
def nextStart (start endv overlap : Nat) : Nat :=
  max (start + 1) (max (endv - overlap / 80) (endv - 3))

/-- The outer `while (start < lines.length)` loop of `chunkFileContent`.
Each iteration computes `end` via the inner scan, pushes
`{ text: slice.join("\n"), start, end: Math.max(0, end - 1) }` when the slice
`lines.slice(start, end)` is non-empty, breaks when `end >= lines.length`, and
otherwise continues from the advanced start line.  The `fuel` argument merely
bounds the number of iterations so the recursion is structural; since the
start line strictly increases every iteration, `lines.length - start`
iterations always suffice, and `chunkLoopF_fuel_irrelevant` below proves the
result does not depend on the bound — i.e. the source loop terminates. -/
def chunkLoopF (lines : List String) (maxChars overlap : Nat) : Nat → Nat → List Chunk
  | 0, _ => []
  | fuel + 1, start =>
    if start < lines.length then
      let endv := scanEnd maxChars (lines.drop start) start 0
      let slice := (lines.take endv).drop start
      (if slice.isEmpty then [] else [⟨String.intercalate "\n" slice, start, endv - 1⟩]) ++
        (if lines.length ≤ endv then []
         else chunkLoopF lines maxChars overlap fuel (nextStart start endv overlap))
    else []

/-- `chunkFileContent(text, { maxChars, overlap })` from src/embeddings.js:
split into lines, then pack into windows of at most `maxChars` characters
(counting one separator per line) with a small line overlap. -/
def chunkFileContent (text : String) (cfg : ChunkCfg) : List Chunk :=
  chunkLoopF (splitLines text) cfg.maxChars cfg.overlap (splitLines text).length 0

example : chunkFileContent "" defaultCfg = [⟨"", 0, 0⟩] := by decide
example : chunkFileContent "a\nb" defaultCfg = [⟨"a\nb", 0, 1⟩] := by decide
example : chunkFileContent "aaaaaa" ⟨5, 0⟩ = [] := by decide

/-- An entry of the persisted vector index
(`{ path, hash, chunkId, start, end, vector, updated_at }`). -/
structure IndexEntry where
  path : String
  hash : String
  chunkId : Nat
  start : Nat
  «end» : Nat
  vector : List ℚ
  updated_at : String
deriving DecidableEq, Repr

/-- The vector index (`{ version, chunks }`). -/
structure VectorIndex where
  version : Nat
  chunks : List IndexEntry
deriving DecidableEq, Repr

/-- `dropFilesFromIndex(index, removedPaths)` from src/embeddings.js:
`if (!removedPaths.length) return index;
 index.chunks = index.chunks.filter((c) => !rm.has(c.path));`. -/
def dropFilesFromIndex (index : VectorIndex) (removedPaths : List String) : VectorIndex :=
  if removedPaths.length = 0 then index
  else { index with chunks := index.chunks.filter (fun c => !(removedPaths.contains c.path)) }

/-- `dropFileFromIndexByPath(index, pathStr)` from src/embeddings.js:
`index.chunks = index.chunks.filter((c) => c.path !== pathStr);`. -/
def dropFileFromIndexByPath (index : VectorIndex) (pathStr : String) : VectorIndex :=
  { index with chunks := index.chunks.filter (fun c => c.path != pathStr) }

/-- The prune step of `readCommand` (src/read.js): drop the removed paths via
`dropFilesFromIndex` and report `before - after` as the number of pruned
chunks (`const before = index.chunks.length; const pruned = before - ...`). -/
def pruneFiles (index : VectorIndex) (paths : List String) : VectorIndex × Nat :=
  let before := index.chunks.length
  let idx := dropFilesFromIndex index paths
  (idx, before - idx.chunks.length)

/-- The insertion loop of `embedFile` (src/embeddings.js): for
`i = 0 .. chunks.length - 1` push
`{ path, hash, chunkId: i, start: chunks[i].start, end: chunks[i].end,
   vector: vectors[i], updated_at: now }`. -/
def freshEntries (filePath fileHash : String) (chunks : List Chunk)
    (vectors : List (List ℚ)) (now : String) : List IndexEntry :=
  (List.range chunks.length).map (fun i =>
    { path := filePath, hash := fileHash, chunkId := i,
      start := (chunks.getD i ⟨"", 0, 0⟩).start,
      «end» := (chunks.getD i ⟨"", 0, 0⟩).«end»,
      vector := vectors.getD i [],
      updated_at := now })

/-- `embedFile({ root, file, model, index })` from src/embeddings.js on the
path where the file was read successfully, with the embedding service
modelled by the pure per-text function `vecFor`: skip blank text, chunk with
the default options, return `{ added: 0 }` on zero chunks, otherwise embed
every chunk text, drop all previous entries for the path and push the fresh
entries.  Returns the updated index paired with the `added` count. -/
def embedFile (vecFor : String → List ℚ) (now : String) (index : VectorIndex)
    (filePath fileHash : String) (text : String) : VectorIndex × Nat :=
  if isBlank text then (index, 0)
  else
    let chunks := chunkFileContent text defaultCfg
    if chunks.length = 0 then (index, 0)
    else
      let vectors := (chunks.map (fun c => c.text)).map vecFor
      let index1 := dropFileFromIndexByPath index filePath
      ({ index1 with chunks := index1.chunks ++ freshEntries filePath fileHash chunks vectors now },
       chunks.length)

/-- `embedFile` with its two fallible steps explicit: `text = none` models
`fs.readFileSync` throwing (caught inside `embedFile`, which then returns
`{ added: 0 }`), and the `oracle` models `embedTexts`, whose exception
propagates to the caller; the source mutates the index only after
`embedTexts` returns, so on error the index is unchanged. -/
def embedFileE (oracle : List String → Except String (List (List ℚ))) (now : String)
    (index : VectorIndex) (filePath fileHash : String) (text : Option String) :
    Except String (VectorIndex × Nat) :=
  match text with
  | none => Except.ok (index, 0)
  | some t =>
    if isBlank t then Except.ok (index, 0)
    else
      let chunks := chunkFileContent t defaultCfg
      if chunks.length = 0 then Except.ok (index, 0)
      else
        match oracle (chunks.map (fun c => c.text)) with
        | Except.error e => Except.error e
        | Except.ok vectors =>
          let index1 := dropFileFromIndexByPath index filePath
          Except.ok
            ({ index1 with
                chunks := index1.chunks ++ freshEntries filePath fileHash chunks vectors now },
             chunks.length)

/-- `true` on `Except.ok`, `false` on `Except.error`. -/
def exceptIsOk : Except String (VectorIndex × Nat) → Bool
  | Except.ok _ => true
  | Except.error _ => false

/-- The per-file loop of `readCommand` (src/read.js): each file is passed to
`embedFile` inside `try { ... totalNewChunks += added } catch { ... }`, so a
throwing `embedFile` leaves the index as it was and processing continues with
the next file.  Files are `(path, hash)` pairs with the read text (`none`
models an unreadable file). -/
def indexLoopE (oracle : List String → Except String (List (List ℚ))) (now : String)
    (index : VectorIndex) : List ((String × String) × Option String) → VectorIndex × Nat
  | [] => (index, 0)
  | ((fp, fh), txt) :: rest =>
    match embedFileE oracle now index fp fh txt with
    | Except.ok (idx1, added) =>
      let r := indexLoopE oracle now idx1 rest
      (r.1, added + r.2)
    | Except.error _ => indexLoopE oracle now index rest

/-- A scored index entry as built by `chatCommand` (src/chat.js):
`{ score: cosine(qVec, c.vector) + freshnessBoost, ...c }`.  The claims about
diversification take the scores as given, so only score, path and chunkId are
carried. -/
structure SEntry where
  score : ℚ
  path : String
  chunkId : Nat
deriving DecidableEq, Repr

/-- One insertion step of a stable descending sort: the new element goes
before the first strictly smaller score, after earlier equal scores. -/
def insertDesc (x : SEntry) : List SEntry → List SEntry
  | [] => [x]
  | y :: ys => if y.score < x.score then x :: y :: ys else y :: insertDesc x ys

/-- `scored.sort((a, b) => b.score - a.score)` — a stable sort by descending
score, as JavaScript `Array.prototype.sort` is stable. -/
def sortDesc (l : List SEntry) : List SEntry :=
  l.foldr insertDesc []

/-- The representative-picking loop of `chatCommand`: the `byFile` map groups
the score-sorted entries by path in order of first appearance, and `arr[0]`
of each group is that first appearance, so iterating the map yields the first
entry of each distinct path in sorted order.  `seen` carries the paths whose
group was already emitted. -/
def repsOfAux (seen : List String) : List SEntry → List SEntry
  | [] => []
  | e :: rest =>
    if seen.contains e.path then repsOfAux seen rest
    else e :: repsOfAux (e.path :: seen) rest

/-- First entry of each distinct path, in order of appearance. -/
def repsOf (l : List SEntry) : List SEntry :=
  repsOfAux [] l

/-- The fill loop of `chatCommand`:
`while (pick.length < k && pick.length < scored.length) pick.push(scored[pick.length]);`.
Each pass grows `pick` by one and the loop stops once `pick.length ≥ k`, so
`k` iterations always suffice; `fuel` is that structural bound. -/
def fillPickF (scored : List SEntry) (k : Nat) : Nat → List SEntry → List SEntry
  | 0, pick => pick
  | fuel + 1, pick =>
    if h : pick.length < k ∧ pick.length < scored.length then
      fillPickF scored k fuel (pick ++ [scored.get ⟨pick.length, h.2⟩])
    else pick

/-- The diversified selection of `chatCommand` (src/chat.js lines 112-130):
sort by score descending, take the per-file representatives until `k` are
picked (`break` when `pick.length >= k`), fill from the sorted list, and use
`pick.slice(0, k)`. -/
def pickTop (scored0 : List SEntry) (k : Nat) : List SEntry :=
  let scored := sortDesc scored0
  let pick := (repsOf scored).take k
  (fillPickF scored k k pick).take k

/-- `readSlice(absPath, start, end)` from src/chat.js applied to the file's
content: `lines.slice(s, e).join("\n")` with `s = Math.max(0, start)` and
`e = Math.min(lines.length, end)`; `slice`'s end bound is exclusive. -/
def readSlice (txt : String) (start «end» : Nat) : String :=
  let lines := splitLines txt
  let s := max 0 start
  let e := min lines.length «end»
  String.intercalate "\n" ((lines.take e).drop s)

/-- The context-block text of `chatCommand`: `let text = "";
try { text = readSlice(abs, c.start, c.end); } catch {}` — an unreadable
file (`none`) yields the empty string instead of failing retrieval. -/
def ctxBlockText (fileText : Option String) (start «end» : Nat) : String :=
  match fileText with
  | none => ""
  | some txt => readSlice txt start «end»

/-- Model of JavaScript `rel.split(".")` over the character list. -/
def splitOnDotAux : List Char → List Char → List String
  | [], acc => [String.mk acc.reverse]
  | '.' :: rest, acc => String.mk acc.reverse :: splitOnDotAux rest []
  | c :: rest, acc => splitOnDotAux rest (c :: acc)

/-- `rel.split(".")`. -/
def splitOnDot (s : String) : List String :=
  splitOnDotAux s.data []

/-- `s.toLowerCase()` character by character. -/
def toLowerStr (s : String) : String :=
  String.mk (s.data.map Char.toLower)

/-- The extension computed by `scanRepo` (src/scan.js):
`(rel.split(".").pop() || "").toLowerCase()`. -/
def extOf (rel : String) : String :=
  toLowerStr ((splitOnDot rel).getLastD "")

/-- One step of the `languages` tally: `languages[ext] = (languages[ext] || 0) + 1`,
on an association list preserving JavaScript object insertion order. -/
def tallyExt (langs : List (String × Nat)) (ext : String) : List (String × Nat) :=
  if langs.any (fun p => p.1 == ext) then
    langs.map (fun p => if p.1 == ext then (p.1, p.2 + 1) else p)
  else langs ++ [(ext, 1)]

/-- The `languages` mapping of `scanRepo` over the returned file set:
for each file, `const ext = (rel.split(".").pop() || "").toLowerCase();
if (ext) languages[ext] = (languages[ext] || 0) + 1;`. -/
def languagesOf (relPaths : List String) : List (String × Nat) :=
  relPaths.foldl (fun langs rel =>
    let ext := extOf rel
    if ext ≠ "" then tallyExt langs ext else langs) []

example : languagesOf ["a.js", "b.JS", "Makefile", "c.md"] =
    [("js", 2), ("makefile", 1), ("md", 1)] := by decide
/-- The rational 0.9 (in lowest terms, so that kernel evaluation works). -/
def score090 : ℚ := ⟨9, 10, by decide, by decide⟩

/-- The rational 0.85. -/
def score085 : ℚ := ⟨17, 20, by decide, by decide⟩

/-- The rational 0.95. -/
def score095 : ℚ := ⟨19, 20, by decide, by decide⟩

example : pickTop [⟨score090, "A", 0⟩, ⟨score085, "A", 1⟩, ⟨score095, "B", 0⟩] 2 =
    [⟨score095, "B", 0⟩, ⟨score090, "A", 0⟩] := by decide
example : readSlice "a\nb" 0 1 = "a" := by decide

/-! ### Helper lemmas about the chunker loops -/

lemma scanEnd_ge (maxChars : Nat) :
    ∀ (rem : List String) (endv size : Nat), endv ≤ scanEnd maxChars rem endv size := by
  intro rem
  induction rem with
  | nil => intro endv size; exact Nat.le_refl _
  | cons l rest ih =>
    intro endv size
    unfold scanEnd
    by_cases h : size + l.length + 1 ≤ maxChars
    · simp only [h, if_true]
      exact Nat.le_trans (Nat.le_succ _) (ih (endv + 1) _)
    · simp only [h, if_false]
      exact Nat.le_refl _

lemma scanEnd_le (maxChars : Nat) :
    ∀ (rem : List String) (endv size : Nat),
      scanEnd maxChars rem endv size ≤ endv + rem.length := by
  intro rem
  induction rem with
  | nil => intro endv size; simp [scanEnd]
  | cons l rest ih =>
    intro endv size
    unfold scanEnd
    by_cases h : size + l.length + 1 ≤ maxChars
    · simp only [h, if_true, List.length_cons]
      calc scanEnd maxChars rest (endv + 1) (size + l.length + 1)
          ≤ (endv + 1) + rest.length := ih _ _
        _ = endv + (rest.length + 1) := by omega
    · simp only [h, if_false, List.length_cons]
      omega

/-- Every chunk emitted by the outer loop from `start` onward starts no
earlier than `start`, covers at least one line that exists in the input, and
its text is the newline-join of exactly its stored line range. -/
lemma chunkLoopF_mem (lines : List String) (maxChars overlap : Nat) :
    ∀ (fuel start : Nat) (c : Chunk), c ∈ chunkLoopF lines maxChars overlap fuel start →
      start ≤ c.start ∧ c.start < c.«end» + 1 ∧ c.«end» + 1 ≤ lines.length ∧
      c.text = String.intercalate "\n" ((lines.take (c.«end» + 1)).drop c.start) := by
  intro fuel
  induction fuel with
  | zero => intro start c hc; simp [chunkLoopF] at hc
  | succ fuel ih =>
    intro start c hc
    unfold chunkLoopF at hc
    by_cases hs : start < lines.length
    · simp only [hs, if_true, List.mem_append] at hc
      rcases hc with hc | hc
      · -- the chunk pushed at this iteration
        by_cases hsl : ((lines.take (scanEnd maxChars (lines.drop start) start 0)).drop start).isEmpty
        · simp [hsl] at hc
        · simp only [hsl, Bool.false_eq_true, if_false, List.mem_singleton] at hc
          subst hc
          have hge : start ≤ scanEnd maxChars (lines.drop start) start 0 :=
            scanEnd_ge maxChars _ start 0
          have hle : scanEnd maxChars (lines.drop start) start 0 ≤ lines.length := by
            have := scanEnd_le maxChars (lines.drop start) start 0
            simp only [List.length_drop] at this
            omega
          have hne : ¬((lines.take (scanEnd maxChars (lines.drop start) start 0)).drop start)
              = [] := by
            intro h; rw [h] at hsl; simp at hsl
          have hlen : ((lines.take (scanEnd maxChars (lines.drop start) start 0)).drop
              start).length ≠ 0 := by
            intro h; exact hne (List.eq_nil_of_length_eq_zero h)
          simp only [List.length_drop, List.length_take] at hlen
          have hlt : start < scanEnd maxChars (lines.drop start) start 0 := by omega
          have hE1 : scanEnd maxChars (lines.drop start) start 0 - 1 + 1 =
              scanEnd maxChars (lines.drop start) start 0 := by omega
          refine ⟨Nat.le_refl _, ?_, ?_, ?_⟩
          · simp only [hE1]; exact hlt
          · simp only [hE1]; exact hle
          · simp only [hE1]
      · -- a chunk from a later iteration
        by_cases hb : lines.length ≤ scanEnd maxChars (lines.drop start) start 0
        · simp [hb] at hc
        · simp only [hb, if_false] at hc
          have := ih (nextStart start (scanEnd maxChars (lines.drop start) start 0) overlap) c hc
          have hns : start + 1 ≤ nextStart start (scanEnd maxChars (lines.drop start) start 0)
              overlap := Nat.le_max_left _ _
          exact ⟨by omega, this.2.1, this.2.2.1, this.2.2.2⟩
    · simp [hs, chunkLoopF] at hc

/-- Chunks are emitted with strictly increasing start lines. -/
lemma chunkLoopF_pairwise (lines : List String) (maxChars overlap : Nat) :
    ∀ (fuel start : Nat),
      List.Pairwise (fun a b => a.start < b.start)
        (chunkLoopF lines maxChars overlap fuel start) := by
  intro fuel
  induction fuel with
  | zero => intro start; simp [chunkLoopF]
  | succ fuel ih =>
    intro start
    unfold chunkLoopF
    by_cases hs : start < lines.length
    · simp only [hs, if_true]
      apply List.pairwise_append.2
      refine ⟨?_, ?_, ?_⟩
      · by_cases hsl : ((lines.take (scanEnd maxChars (lines.drop start) start 0)).drop
            start).isEmpty <;> simp [hsl]
      · by_cases hb : lines.length ≤ scanEnd maxChars (lines.drop start) start 0
        · simp [hb]
        · simp only [hb, if_false]; exact ih _
      · intro a ha b hb2
        by_cases hsl : ((lines.take (scanEnd maxChars (lines.drop start) start 0)).drop
            start).isEmpty
        · simp [hsl] at ha
        · simp only [hsl, Bool.false_eq_true, if_false, List.mem_singleton] at ha
          subst ha
          by_cases hb : lines.length ≤ scanEnd maxChars (lines.drop start) start 0
          · simp [hb] at hb2
          · simp only [hb, if_false] at hb2
            have := (chunkLoopF_mem lines maxChars overlap fuel _ b hb2).1
            have hns : start + 1 ≤ nextStart start
                (scanEnd maxChars (lines.drop start) start 0) overlap := Nat.le_max_left _ _
            simp only
            omega
    · simp [hs]

/-- The iteration bound is irrelevant as soon as it is at least
`lines.length - start`: the loop always exits on its own guard first, which
is the termination argument for the source's `while` loop. -/
lemma chunkLoopF_fuel_irrelevant (lines : List String) (maxChars overlap : Nat) :
    ∀ (f1 f2 s : Nat), lines.length - s ≤ f1 → lines.length - s ≤ f2 →
      chunkLoopF lines maxChars overlap f1 s = chunkLoopF lines maxChars overlap f2 s := by
  intro f1
  induction f1 with
  | zero =>
    intro f2 s h1 h2
    have hs : ¬s < lines.length := by omega
    cases f2 with
    | zero => rfl
    | succ g => simp [chunkLoopF, hs]
  | succ f ih =>
    intro f2 s h1 h2
    by_cases hs : s < lines.length
    · cases f2 with
      | zero => omega
      | succ g =>
        simp only [chunkLoopF, hs, if_true]
        by_cases hb : lines.length ≤ scanEnd maxChars (lines.drop s) s 0
        · simp [hb]
        · simp only [hb, if_false]
          have hns : s + 1 ≤ nextStart s (scanEnd maxChars (lines.drop s) s 0) overlap :=
            Nat.le_max_left _ _
          rw [ih g _ (by omega) (by omega)]
    · cases f2 with
      | zero => simp [chunkLoopF, hs]
      | succ g => simp [chunkLoopF, hs]

/-- `splitLinesAux` on text containing no newline character yields a single
line: the accumulator followed by that text. -/
lemma splitLinesAux_no_newline :
    ∀ (l acc : List Char), '\n' ∉ l →
      splitLinesAux l acc = [String.mk (acc.reverse ++ l)] := by
  intro l acc
  induction l, acc using splitLinesAux.induct with
  | case1 acc => intro _; simp [splitLinesAux]
  | case2 rest acc => intro hno; simp at hno
  | case3 rest acc => intro hno; simp at hno
  | case4 c rest acc h1 h2 ih =>
    intro hno
    have hrest : '\n' ∉ rest := fun hm => hno (List.mem_cons_of_mem c hm)
    rw [splitLinesAux, ih hrest]
    · simp [List.reverse_cons, List.append_assoc]
    · exact h1
    · exact h2

/-- A single line of 2000 characters: at the default `maxChars = 2000` the
inner scan admits no line (`2000 + 1 > 2000` characters), so the chunker
produces no chunk for it. -/
def bigLine : String := String.mk (List.replicate 2000 'a')

lemma splitLines_bigLine : splitLines bigLine = [bigLine] := by
  show splitLinesAux (List.replicate 2000 'a') [] = [bigLine]
  rw [splitLinesAux_no_newline]
  · rw [List.reverse_nil, List.nil_append]
    rfl
  · intro hm
    have h := List.eq_of_mem_replicate hm
    exact absurd h (by decide)

lemma bigLine_length : bigLine.length = 2000 := by
  show (List.replicate 2000 'a').length = 2000
  rw [List.length_replicate]

lemma isBlank_bigLine : isBlank bigLine = false := by
  apply Bool.eq_false_iff.2
  intro h
  rw [isBlank, List.all_eq_true] at h
  have hmem : 'a' ∈ bigLine.data := List.mem_replicate.2 ⟨by decide, rfl⟩
  exact absurd (h 'a' hmem) (by decide)

/-- Once the start line has reached the end of the input, the loop emits
nothing. -/
lemma chunkLoopF_done (lines : List String) (mc ov : Nat) :
    ∀ (fuel start : Nat), lines.length ≤ start → chunkLoopF lines mc ov fuel start = [] := by
  intro fuel start h
  cases fuel with
  | zero => rfl
  | succ f =>
    simp only [chunkLoopF]
    rw [if_neg (by omega)]

set_option maxRecDepth 4000 in
lemma chunk_bigLine : chunkFileContent bigLine defaultCfg = [] := by
  show chunkLoopF (splitLines bigLine) 2000 200 (splitLines bigLine).length 0 = []
  rw [splitLines_bigLine]
  show chunkLoopF [bigLine] 2000 200 1 0 = []
  have hscan : scanEnd 2000 (List.drop 0 [bigLine]) 0 0 = 0 := by
    show scanEnd 2000 [bigLine] 0 0 = 0
    have h := bigLine_length
    unfold scanEnd
    rw [if_neg (by omega)]
  simp only [chunkLoopF]
  rw [hscan]
  norm_num [chunkLoopF]

/-! ### Helper lemmas about filters -/

lemma filter_all_self {α : Type} (l : List α) (p : α → Bool) : (l.filter p).all p = true := by
  rw [List.all_eq_true]
  intro a ha
  exact List.of_mem_filter ha

lemma filter_idem {α : Type} (l : List α) (p : α → Bool) :
    (l.filter p).filter p = l.filter p :=
  List.filter_eq_self.2 (fun _ ha => List.of_mem_filter ha)

lemma length_sub_filter_not {α : Type} (l : List α) (p : α → Bool) :
    l.length - (l.filter (fun a => !(p a))).length = l.countP p := by
  induction l with
  | nil => rfl
  | cons a t ih =>
    have hle : (t.filter (fun x => !(p x))).length ≤ t.length := List.length_filter_le _ _
    cases hpa : p a with
    | true => simp [List.filter_cons, List.countP_cons, hpa]; omega
    | false => simp [List.filter_cons, List.countP_cons, hpa]; omega

/-- Entries freshly inserted by `embedFile` all carry the file's path, the
file's new hash, and consecutive `chunkId`s. -/
lemma mem_freshEntries {fp fh now : String} {chunks : List Chunk}
    {vectors : List (List ℚ)} {a : IndexEntry}
    (ha : a ∈ freshEntries fp fh chunks vectors now) : a.path = fp ∧ a.hash = fh := by
  rw [freshEntries] at ha
  obtain ⟨i, _, rfl⟩ := List.mem_map.1 ha
  exact ⟨rfl, rfl⟩

lemma freshEntries_filter_path_eq {fp fh now : String} {chunks : List Chunk}
    {vectors : List (List ℚ)} :
    (freshEntries fp fh chunks vectors now).filter (fun c => c.path == fp)
      = freshEntries fp fh chunks vectors now :=
  List.filter_eq_self.2 (fun a ha => by rw [(mem_freshEntries ha).1]; exact beq_self_eq_true fp)

lemma freshEntries_filter_path_ne {fp fh now : String} {chunks : List Chunk}
    {vectors : List (List ℚ)} :
    (freshEntries fp fh chunks vectors now).filter (fun c => c.path != fp) = [] := by
  rw [List.filter_eq_nil_iff]
  intro a ha
  rw [(mem_freshEntries ha).1]
  simp

lemma dropped_filter_path_eq (index : VectorIndex) (fp : String) :
    ((dropFileFromIndexByPath index fp).chunks.filter (fun c => c.path == fp)) = [] := by
  rw [List.filter_eq_nil_iff]
  intro a ha
  have h2 := List.of_mem_filter ha
  rw [bne_iff_ne] at h2
  simp [h2]

lemma map_proj_range {β : Type} (n : Nat) (f : Nat → β) (g : β → Nat)
    (h : ∀ i, g (f i) = i) : ((List.range n).map f).map g = List.range n := by
  rw [List.map_map]
  have hfg : (g ∘ f) = fun i => i := funext h
  rw [hfg]
  exact List.map_id' _

/-- On non-blank text that chunks into at least one chunk, `embedFile` takes
its upsert branch: drop all entries for the path, then append the fresh set. -/
lemma embedFile_eq (vecFor : String → List ℚ) (now : String) (index : VectorIndex)
    (fp fh text : String)
    (hblank : isBlank text = false)
    (hchunks : chunkFileContent text defaultCfg ≠ []) :
    embedFile vecFor now index fp fh text
      = ({ dropFileFromIndexByPath index fp with
            chunks := (dropFileFromIndexByPath index fp).chunks
              ++ freshEntries fp fh (chunkFileContent text defaultCfg)
                  (((chunkFileContent text defaultCfg).map (fun c => c.text)).map vecFor) now },
         (chunkFileContent text defaultCfg).length) := by
  have hlen : ¬((chunkFileContent text defaultCfg).length = 0) := by
    intro h
    exact hchunks (List.eq_nil_of_length_eq_zero h)
  simp only [embedFile, hblank, Bool.false_eq_true, if_false]
  rw [if_neg hlen]

/-! ### Claim theorems -/

/-- C1: for every input text and every maxChars/overlap configuration, the
chunker makes forward progress: the produced windows have strictly increasing
start lines, the advanced start of each loop iteration strictly exceeds the
previous one, and the loop's result is independent of the iteration bound as
soon as that bound is at least the number of remaining lines — i.e.
`chunkFileContent` terminates. -/
theorem chunker_starts_strictly_increase :
    (∀ (text : String) (cfg : ChunkCfg),
        List.Pairwise (fun a b => a.start < b.start) (chunkFileContent text cfg))
    ∧ (∀ (start endv overlap : Nat), start < nextStart start endv overlap)
    ∧ (∀ (lines : List String) (maxChars overlap f1 f2 s : Nat),
        lines.length - s ≤ f1 → lines.length - s ≤ f2 →
        chunkLoopF lines maxChars overlap f1 s = chunkLoopF lines maxChars overlap f2 s) := by
  refine ⟨?_, ?_, ?_⟩
  · intro text cfg
    exact chunkLoopF_pairwise (splitLines text) cfg.maxChars cfg.overlap (splitLines text).length 0
  · intro start endv overlap
    exact Nat.lt_of_lt_of_le (Nat.lt_succ_self start) (Nat.le_max_left _ _)
  · intro lines maxChars overlap f1 f2 s h1 h2
    exact chunkLoopF_fuel_irrelevant lines maxChars overlap f1 f2 s h1 h2

/-- Witness for C1: on a concrete two-line input, two sufficient iteration
bounds yield the same chunks. -/
theorem chunker_starts_strictly_increase_witness :
    (["a", "b"].length - 0 ≤ 2 ∧ ["a", "b"].length - 0 ≤ 5)
    ∧ chunkLoopF ["a", "b"] 2000 200 2 0 = chunkLoopF ["a", "b"] 2000 200 5 0 :=
  ⟨⟨by decide, by decide⟩,
   chunker_starts_strictly_increase.2.2 ["a", "b"] 2000 200 2 5 0 (by decide) (by decide)⟩

/-- C2 (failing input): a single line of 6 characters at `maxChars = 5` is
silently dropped — `chunkFileContent` returns no chunk at all, so the line is
not covered by any window and does not form its own one-line chunk, against
the claim. -/
theorem chunker_drops_overlong_line : chunkFileContent "aaaaaa" ⟨5, 0⟩ = [] := by decide

/-- C3 counterexample: on the empty string the chunker does not return the
empty chunk sequence. -/
theorem empty_string_chunk_not_empty_seq : chunkFileContent "" defaultCfg ≠ [] := by decide

/-- C3 (amended): on the empty string the chunker returns a single chunk with
empty text spanning lines `[0, 0]` (JavaScript `"".split` yields `[""]`);
the indexing pipeline still adds no chunks for an empty file because
`embedFile` skips files that are blank after sanitization. -/
theorem empty_string_single_empty_chunk :
    chunkFileContent "" defaultCfg = [⟨"", 0, 0⟩]
    ∧ embedFile (fun _ => [1]) "t" ⟨1, []⟩ "f" "h" "" = (⟨1, []⟩, 0) := by
  constructor
  · decide
  · decide

/-- C4: diversification on the claim's concrete scenario — an index with
chunks from file A scoring 0.9 and 0.85 and file B scoring 0.95: with k = 1
the selection is B's chunk alone, and with k = 2 it is B's chunk followed by
A's 0.9 chunk (one block per file, never two from B while A is unused). -/
theorem diversification_scenario :
    pickTop [⟨score090, "A", 0⟩, ⟨score085, "A", 1⟩, ⟨score095, "B", 0⟩] 1
        = [⟨score095, "B", 0⟩]
    ∧ pickTop [⟨score090, "A", 0⟩, ⟨score085, "A", 1⟩, ⟨score095, "B", 0⟩] 2
        = [⟨score095, "B", 0⟩, ⟨score090, "A", 0⟩] := by
  constructor
  · decide
  · decide

/-- A stale index entry for path "f" under the old hash "h1". -/
def staleEntry : IndexEntry := ⟨"f", "h1", 0, 0, 0, [1], "t0"⟩

/-- An index holding only the stale entry. -/
def staleIndex : VectorIndex := ⟨1, [staleEntry]⟩

/-- C5 counterexample: re-embedding path "f" under the new hash "h2" with
content that is a single 2000-character line succeeds (`added = 0`) yet
leaves the index untouched — the entry under the stale hash "h1" survives,
because `embedFile` returns before dropping prior entries when chunking
yields zero chunks. -/
theorem embedFile_zero_chunks_keeps_stale_hash :
    embedFile (fun _ => [1]) "t1" staleIndex "f" "h2" bigLine = (staleIndex, 0)
    ∧ ((staleIndex.chunks.filter (fun c => c.path == "f")).all (fun c => c.hash == "h2"))
        = false := by
  constructor
  · simp [embedFile, isBlank_bigLine, chunk_bigLine]
  · decide

/-- C5 (amended): when `embedFile` reaches its upsert branch — the file's
text is non-blank and chunks into at least one chunk — the entries for the
file's path afterwards are exactly the freshly inserted set: their `chunkId`s
are exactly `0..n-1` in order, they all carry the new hash, and entries for
every other path are untouched (all prior entries for the path are dropped
before the fresh set is inserted).  When chunking yields zero chunks the
function instead returns with the index unchanged (see the counterexample). -/
theorem embedFile_upsert_fresh_entries
    (vecFor : String → List ℚ) (now : String) (index : VectorIndex)
    (fp fh text : String)
    (hblank : isBlank text = false)
    (hchunks : chunkFileContent text defaultCfg ≠ []) :
    ((embedFile vecFor now index fp fh text).1.chunks.filter (fun c => c.path == fp)
        = freshEntries fp fh (chunkFileContent text defaultCfg)
            (((chunkFileContent text defaultCfg).map (fun c => c.text)).map vecFor) now)
    ∧ (((embedFile vecFor now index fp fh text).1.chunks.filter
          (fun c => c.path == fp)).map (fun c => c.chunkId)
        = List.range (chunkFileContent text defaultCfg).length)
    ∧ ((((embedFile vecFor now index fp fh text).1.chunks.filter
          (fun c => c.path == fp)).all (fun c => c.hash == fh)) = true)
    ∧ ((embedFile vecFor now index fp fh text).1.chunks.filter (fun c => c.path != fp)
        = index.chunks.filter (fun c => c.path != fp)) := by
  rw [embedFile_eq vecFor now index fp fh text hblank hchunks]
  simp only [List.filter_append]
  rw [dropped_filter_path_eq, freshEntries_filter_path_eq, freshEntries_filter_path_ne,
    List.nil_append, List.append_nil]
  refine ⟨rfl, ?_, ?_, ?_⟩
  · rw [freshEntries]
    apply map_proj_range
    intro i
    rfl
  · rw [List.all_eq_true]
    intro a ha
    rw [(mem_freshEntries ha).2]
    exact beq_self_eq_true fh
  · exact filter_idem index.chunks _

/-- The index used by the C5 witness: a stale entry for "f" and an entry for
an unrelated path "g". -/
def witnessIndex : VectorIndex :=
  ⟨1, [⟨"f", "h1", 0, 0, 0, [1], "t0"⟩, ⟨"g", "h9", 0, 0, 0, [2], "t0"⟩]⟩

/-- Witness for C5: on the two-line file "a\nb" the hypotheses hold and the
surviving entries for "f" have `chunkId`s exactly `0..n-1`. -/
theorem embedFile_upsert_fresh_entries_witness :
    isBlank "a\nb" = false ∧ chunkFileContent "a\nb" defaultCfg ≠ []
    ∧ (((embedFile (fun _ => [1]) "t1" witnessIndex "f" "h2" "a\nb").1.chunks.filter
          (fun c => c.path == "f")).map (fun c => c.chunkId)
        = List.range (chunkFileContent "a\nb" defaultCfg).length) :=
  ⟨by decide, by decide,
   (embedFile_upsert_fresh_entries (fun _ => [1]) "t1" witnessIndex "f" "h2" "a\nb"
      (by decide) (by decide)).2.1⟩

/-- C6: a per-file failure does not abort the indexing run and the upsert is
all-or-nothing — if the embedding call for a file fails, the loop's result on
the remaining files is exactly as if that file had been absent (the index
keeps every entry it had, including that file's), and an unreadable file
(`none`) is caught inside `embedFile`, contributing zero chunks. -/
theorem per_file_failure_skipped
    (oracle : List String → Except String (List (List ℚ))) (now : String)
    (index : VectorIndex) (fp fh : String) (txt : Option String)
    (rest : List ((String × String) × Option String))
    (hfail : exceptIsOk (embedFileE oracle now index fp fh txt) = false) :
    indexLoopE oracle now index (((fp, fh), txt) :: rest) = indexLoopE oracle now index rest
    ∧ embedFileE oracle now index fp fh none = Except.ok (index, 0) := by
  constructor
  · cases h : embedFileE oracle now index fp fh txt with
    | ok v =>
      rw [h] at hfail
      simp [exceptIsOk] at hfail
    | error e => simp [indexLoopE, h]
  · rfl

/-- The oracle used in the C6 witness: the embedding service fails exactly on
the chunk-text batch of file "f" (whose sole chunk text is "a"). -/
def failingOracle : List String → Except String (List (List ℚ)) :=
  fun ts => if ts = ["a"] then Except.error "boom" else Except.ok (ts.map (fun _ => [1]))

/-- Witness for C6: file "f" fails to embed, file "g" is still processed and
the run's outcome equals the run without "f". -/
theorem per_file_failure_skipped_witness :
    exceptIsOk (embedFileE failingOracle "t" ⟨1, []⟩ "f" "h" (some "a")) = false
    ∧ (indexLoopE failingOracle "t" ⟨1, []⟩ [(("f", "h"), some "a"), (("g", "h2"), some "b")]
        = indexLoopE failingOracle "t" ⟨1, []⟩ [(("g", "h2"), some "b")]) :=
  ⟨by decide,
   (per_file_failure_skipped failingOracle "t" ⟨1, []⟩ "f" "h" (some "a")
      [(("g", "h2"), some "b")] (by decide)).1⟩

/-- C7 (failing input): for an index entry with `start = 0`, `end = 1` over
the two-line file "a\nb", the context block's text is "a" — JavaScript
`slice`'s exclusive end bound drops the chunk's last stored line instead of
producing the inclusive range `[0, 1]` ("a\nb"); an unreadable file still
yields the empty string rather than failing retrieval. -/
theorem readSlice_drops_last_line :
    ctxBlockText (some "a\nb") 0 1 = "a"
    ∧ ctxBlockText (some "a\nb") 0 1 ≠ "a\nb"
    ∧ ctxBlockText none 0 1 = "" := by
  refine ⟨by decide, by decide, rfl⟩

/-- C8: the prune step removes exactly the entries whose path lies in the
given path set — afterwards no such entry remains, entries with other paths
survive unchanged and in order, the reported count is the number of removed
entries, and the empty path set is a no-op reporting zero. -/
theorem pruneFiles_spec (index : VectorIndex) (paths : List String) :
    ((pruneFiles index paths).1.chunks.all (fun c => !(paths.contains c.path))) = true
    ∧ (pruneFiles index paths).1.chunks
        = index.chunks.filter (fun c => !(paths.contains c.path))
    ∧ (pruneFiles index paths).2 = index.chunks.countP (fun c => paths.contains c.path)
    ∧ pruneFiles index [] = (index, 0) := by
  have h2 : (pruneFiles index paths).1.chunks
      = index.chunks.filter (fun c => !(paths.contains c.path)) := by
    cases paths with
    | nil =>
      show (dropFilesFromIndex index []).chunks = _
      rw [dropFilesFromIndex, if_pos (show ([] : List String).length = 0 from rfl)]
      exact (List.filter_eq_self.2 (fun _ _ => rfl)).symm
    | cons p ps =>
      show (dropFilesFromIndex index (p :: ps)).chunks = _
      rw [dropFilesFromIndex, if_neg (by simp)]
  refine ⟨?_, h2, ?_, ?_⟩
  · rw [h2]
    exact filter_all_self index.chunks _
  · show index.chunks.length - (pruneFiles index paths).1.chunks.length = _
    rw [h2]
    exact length_sub_filter_not index.chunks _
  · show (dropFilesFromIndex index [],
        index.chunks.length - (dropFilesFromIndex index []).chunks.length) = (index, 0)
    rw [dropFilesFromIndex, if_pos (show ([] : List String).length = 0 from rfl), Nat.sub_self]

/-- C9 (failing input): a file named "Makefile" has no extension, yet the
languages tally counts it under its whole lowercased name instead of
omitting it — JavaScript `"Makefile".split(".").pop()` is "Makefile", not
the empty string the guard tests for. -/
theorem languages_tallies_extensionless_file :
    languagesOf ["Makefile"] = [("makefile", 1)]
    ∧ languagesOf ["a.js", "b.JS", "c."] = [("js", 2)] := by
  constructor
  · decide
  · decide

/-- C10: every chunk's stored text is exactly the lines of the input from its
stored `start` to its stored `end` (0-based, inclusive), joined with a single
newline — the stored line range identifies the stored text within the file. -/
theorem chunk_text_matches_line_range (text : String) (cfg : ChunkCfg) :
    ((chunkFileContent text cfg).all (fun c =>
        c.text == String.intercalate "\n"
          (((splitLines text).take (c.«end» + 1)).drop c.start))) = true := by
  rw [List.all_eq_true]
  intro c hc
  have hm := chunkLoopF_mem (splitLines text) cfg.maxChars cfg.overlap
    (splitLines text).length 0 c hc
  exact beq_iff_eq.2 hm.2.2.2
